import Mathlib

set_option maxHeartbeats 1000000

/-
Verification of the soul-coder text-transformation core: the edit tool's
replacement engine (src/tools/edit.rs) and the truncation engine
(src/truncate.rs).  Rust strings are modelled as lists of Unicode scalar
values (`List Char`); byte counts are recovered through UTF-8 sizes, so
byte-oriented quantities of the source (`str::len`, `match_indices`
offsets) are represented faithfully.
-/

/-- Number of UTF-8 bytes of a text, as Rust `str::len` counts them. -/
def byteLen (s : List Char) : Nat := (s.map Char.utf8Size).sum

/-- Helper for `rustLinesAux`: prepend a character to the first line. -/
def consHead (c : Char) : List (List Char) → List (List Char)
  | [] => [[c]]
  | l :: ls => (c :: l) :: ls

/-- Split at line terminators, `"\r\n"` or `"\n"`, keeping a last (possibly
empty) segment; mirrors the splitting underlying Rust `str::lines`. -/
def rustLinesAux : List Char → List (List Char)
  | [] => [[]]
  | '\r' :: '\n' :: rest => [] :: rustLinesAux rest
  | '\n' :: rest => [] :: rustLinesAux rest
  | c :: rest => consHead c (rustLinesAux rest)

/-- Drop a final empty segment, as Rust `str::lines` does for a trailing
line terminator. -/
def dropLastEmpty (ls : List (List Char)) : List (List Char) :=
  match ls.getLast? with
  | some [] => ls.dropLast
  | _ => ls

/-- Rust `str::lines()` as a list of lines. -/
def rustLines (s : List Char) : List (List Char) := dropLastEmpty (rustLinesAux s)

/-- Rust `Vec::join("\n")`. -/
def joinNl : List (List Char) → List Char
  | [] => []
  | l :: ls => l ++ (if ls = [] then [] else '\n' :: joinNl ls)

/-- Fuelled scan behind `countOcc`: non-overlapping left-to-right counting of
occurrences of a non-empty pattern, advancing past each match, as Rust
`str::match_indices`.  The fuel only needs to cover the length of the text. -/
def countOccAux (pat : List Char) : Nat → List Char → Nat
  | 0, _ => 0
  | _ + 1, [] => 0
  | fuel + 1, c :: rest =>
    if pat.isPrefixOf (c :: rest) then
      1 + countOccAux pat fuel (rest.drop (pat.length - 1))
    else countOccAux pat fuel rest

/-- Number of matches of `str::match_indices(pat)` over a text: non-overlapping
left-to-right scan; the empty pattern matches at every character boundary. -/
def countOcc (pat s : List Char) : Nat :=
  if pat = [] then s.length + 1 else countOccAux pat s.length s

/-- Fuelled scan behind `replaceFirst`. -/
def replaceFirstAux (pat new : List Char) : Nat → List Char → List Char
  | 0, s => s
  | _ + 1, [] => []
  | fuel + 1, c :: rest =>
    if pat.isPrefixOf (c :: rest) then new ++ rest.drop (pat.length - 1)
    else c :: replaceFirstAux pat new fuel rest

/-- Rust `str::replacen(pat, new, 1)`: replace the leftmost occurrence of
`pat`, leaving the text unchanged when there is none. -/
def replaceFirst (pat new s : List Char) : List Char :=
  if pat = [] then new ++ s else replaceFirstAux pat new s.length s

/-- Fuelled scan behind `firstMatch`. -/
def firstMatchAux (pat : List Char) : Nat → List Char → Option Nat
  | 0, _ => none
  | _ + 1, [] => none
  | fuel + 1, c :: rest =>
    if pat.isPrefixOf (c :: rest) then some 0
    else (firstMatchAux pat fuel rest).map (· + 1)

/-- Character index of the leftmost occurrence of `pat` in `s` (the byte
offset reported by `match_indices` identifies the same position). -/
def firstMatch (pat s : List Char) : Option Nat :=
  if pat = [] then some 0 else firstMatchAux pat s.length s

/-- Rust `char::is_whitespace`: the Unicode White_Space code points. -/
def rustIsWhitespace (c : Char) : Bool :=
  ([0x9, 0xA, 0xB, 0xC, 0xD, 0x20, 0x85, 0xA0, 0x1680,
    0x2000, 0x2001, 0x2002, 0x2003, 0x2004, 0x2005, 0x2006, 0x2007,
    0x2008, 0x2009, 0x200A, 0x2028, 0x2029, 0x202F, 0x205F, 0x3000] :
      List Nat).contains c.toNat

/-- Rust `str::trim_end`: remove trailing whitespace characters. -/
def trimEnd (l : List Char) : List Char :=
  (l.reverse.dropWhile rustIsWhitespace).reverse

/-- Rust `str::replace(a, b)` where both needle and replacement are a single
character, as in every `replace` call of `normalize_for_fuzzy`. -/
def replaceChar (a b : Char) (l : List Char) : List Char :=
  l.map fun c => if c = a then b else c

/-- One line of `normalize_for_fuzzy`: `trim_end`, then fold the typographic
quotes, dashes and no-break spaces to ASCII (edit.rs lines 36-45). -/
def normalizeLine (l : List Char) : List Char :=
  replaceChar ' ' (Char.ofNat 0x20)
    (replaceChar ' ' (Char.ofNat 0x20)
      (replaceChar '—' (Char.ofNat 0x2D)
        (replaceChar '–' (Char.ofNat 0x2D)
          (replaceChar '”' (Char.ofNat 0x22)
            (replaceChar '“' (Char.ofNat 0x22)
              (replaceChar '’' (Char.ofNat 0x27)
                (replaceChar '‘' (Char.ofNat 0x27) (trimEnd l))))))))

/-- `normalize_for_fuzzy` (edit.rs lines 33-49): normalize per line, join the
lines back with `"\n"`. -/
def normalize_for_fuzzy (t : List Char) : List Char :=
  joinNl ((rustLines t).map normalizeLine)

inductive EditMethod where
  | exact
  | fuzzy
deriving DecidableEq

/-- Outcome of the pure replacement engine of `EditTool::execute`: a new
document with the method tag, or one of the error messages returned via
`ToolOutput::error`. -/
inductive EditResult where
  | ok (doc : List Char) (method : EditMethod)
  | errEmptyOld
  | errIdentical
  | errAmbiguous (count : Nat) (fuzzyPhase : Bool)
  | errNotFound
deriving DecidableEq

/-- The pure core of `EditTool::execute` (edit.rs lines 128-194): parameter
validation, exact phase, fuzzy phase with the line-offset remapping and its
normalized-text fallback. -/
def applyEdit (content old new : List Char) : EditResult :=
  if old = [] then .errEmptyOld
  else if old = new then .errIdentical
  else if countOcc old content = 1 then
    .ok (replaceFirst old new content) .exact
  else if 1 < countOcc old content then
    .errAmbiguous (countOcc old content) false
  else
    let normContent := normalize_for_fuzzy content
    let normOld := normalize_for_fuzzy old
    if countOcc normOld normContent = 1 then
      match firstMatch normOld normContent with
      | some fuzzyPos =>
        let normLinesBefore := (rustLines (normContent.take fuzzyPos)).length
        let originalLines := rustLines content
        let searchLines := rustLines old
        if 0 < normLinesBefore ∧ normLinesBefore ≤ originalLines.length then
          let startLine := normLinesBefore - 1
          let endLine := min (startLine + searchLines.length) originalLines.length
          let originalSection :=
            joinNl ((originalLines.drop startLine).take (endLine - startLine))
          .ok (replaceFirst originalSection new content) .fuzzy
        else
          .ok (replaceFirst normOld new normContent) .fuzzy
      | none => .errNotFound
    else if 1 < countOcc normOld normContent then
      .errAmbiguous (countOcc normOld normContent) true
    else .errNotFound

example : countOcc ['h', 'i'] ['h', 'i', 'h', 'i', 'h'] = 2 := by decide

example : countOcc ['a', 'a'] ['a', 'a', 'a'] = 1 := by decide

example : rustLines ['a', '\n', 'b', '\n'] = [['a'], ['b']] := by decide

example : rustLines ['a', '\r', '\n', 'b'] = [['a'], ['b']] := by decide

example :
    applyEdit ['a', 'b', 'c'] ['b'] ['x'] = .ok ['a', 'x', 'c'] .exact := by
  decide

example :
    applyEdit ['’', 's'] [Char.ofNat 0x27, 's'] ['x'] =
      .ok ['x'] .fuzzy := by
  decide

example :
    applyEdit ['a', 'a'] ['a'] ['b'] = .errAmbiguous 2 false := by decide

theorem isPrefixOf_exists {pat s : List Char} (h : pat.isPrefixOf s = true) :
    s = pat ++ s.drop pat.length := by
  induction pat generalizing s with
  | nil => simp
  | cons p ps ih =>
    match s with
    | [] => simp [List.isPrefixOf] at h
    | c :: rest =>
      simp only [List.isPrefixOf, Bool.and_eq_true, beq_iff_eq] at h
      obtain ⟨h1, h2⟩ := h
      subst h1
      simpa using ih h2

theorem countOccAux_pos_decomp (pat new : List Char) (hpat : pat ≠ []) :
    ∀ fuel s, 1 ≤ countOccAux pat fuel s →
      ∃ p t, s = p ++ pat ++ t ∧ replaceFirstAux pat new fuel s = p ++ new ++ t := by
  intro fuel
  induction fuel with
  | zero => intro s h; simp [countOccAux] at h
  | succ n ih =>
    intro s h
    match s with
    | [] => simp [countOccAux] at h
    | c :: rest =>
      by_cases hp : pat.isPrefixOf (c :: rest)
      · obtain ⟨k, hk⟩ : ∃ k, pat.length = k + 1 :=
          ⟨pat.length - 1, (Nat.succ_pred_eq_of_pos (List.length_pos.mpr hpat)).symm⟩
        have hdec := isPrefixOf_exists hp
        refine ⟨[], rest.drop (pat.length - 1), ?_, ?_⟩
        · simpa [hk, List.drop_succ_cons] using hdec
        · simp [replaceFirstAux, hp]
      · have h' : 1 ≤ countOccAux pat n rest := by
          simpa [countOccAux, hp] using h
        obtain ⟨p, t, hs, hr⟩ := ih rest h'
        exact ⟨c :: p, t, by simp [hs], by simp [replaceFirstAux, hp, hr]⟩

/-- C1: a document with exactly one exact (non-overlapping, byte-for-byte)
occurrence of a non-empty `old` is edited successfully with method `exact`,
and the result is the document with that occurrence replaced by `new` once. -/
theorem edit_exact_unique_replaces (content old new : List Char) (hne : old ≠ [])
    (hdiff : old ≠ new) (h1 : countOcc old content = 1) :
    ∃ p t, content = p ++ old ++ t ∧
      applyEdit content old new = .ok (p ++ new ++ t) .exact := by
  have hc : 1 ≤ countOccAux old content.length content := by
    unfold countOcc at h1
    rw [if_neg hne] at h1
    omega
  obtain ⟨p, t, hs, hr⟩ := countOccAux_pos_decomp old new hne content.length content hc
  refine ⟨p, t, hs, ?_⟩
  unfold applyEdit
  rw [if_neg hne, if_neg hdiff, if_pos h1]
  unfold replaceFirst
  rw [if_neg hne, hr]

/-- Witness for C1 at a concrete input. -/
theorem edit_exact_unique_replaces_witness :
    ∃ p t, ['a', 'b', 'c'] = p ++ ['b'] ++ t ∧
      applyEdit ['a', 'b', 'c'] ['b'] ['x'] = .ok (p ++ ['x'] ++ t) .exact :=
  edit_exact_unique_replaces ['a', 'b', 'c'] ['b'] ['x']
    (by decide) (by decide) (by decide)

/-- C4 counterexample: with two exact occurrences but `new` equal to `old`,
the edit fails with the identical-text error, not the ambiguity error, so the
claim as stated (quantifying over every replacement) does not hold. -/
theorem edit_ambiguous_identical_cex :
    countOcc ['a'] ['a', 'a'] = 2 ∧
    applyEdit ['a', 'a'] ['a'] ['a'] = .errIdentical ∧
    applyEdit ['a', 'a'] ['a'] ['a'] ≠ .errAmbiguous 2 false := by decide

/-- C4 (amended): for a non-empty `old` different from `new` with at least two
exact occurrences, the edit fails with the ambiguity error carrying the
non-overlapping left-to-right occurrence count, and no replacement happens. -/
theorem edit_ambiguous_exact_count (content old new : List Char) (hne : old ≠ [])
    (hdiff : old ≠ new) (h2 : 2 ≤ countOcc old content) :
    applyEdit content old new = .errAmbiguous (countOcc old content) false := by
  unfold applyEdit
  rw [if_neg hne, if_neg hdiff, if_neg (by omega : ¬ countOcc old content = 1),
    if_pos (by omega : 1 < countOcc old content)]

/-- Witness for C4 at a concrete input. -/
theorem edit_ambiguous_exact_count_witness :
    applyEdit ['a', 'b', 'a'] ['a'] ['c'] = .errAmbiguous (countOcc ['a'] ['a', 'b', 'a']) false :=
  edit_ambiguous_exact_count ['a', 'b', 'a'] ['a'] ['c'] (by decide) (by decide) (by decide)

theorem countOccAux_pos_firstMatch (pat : List Char) :
    ∀ fuel s, 1 ≤ countOccAux pat fuel s → ∃ k, firstMatchAux pat fuel s = some k := by
  intro fuel
  induction fuel with
  | zero => intro s h; simp [countOccAux] at h
  | succ n ih =>
    intro s h
    match s with
    | [] => simp [countOccAux] at h
    | c :: rest =>
      by_cases hp : pat.isPrefixOf (c :: rest)
      · exact ⟨0, by simp [firstMatchAux, hp]⟩
      · have h' : 1 ≤ countOccAux pat n rest := by
          simpa [countOccAux, hp] using h
        obtain ⟨k, hk⟩ := ih rest h'
        exact ⟨k + 1, by simp [firstMatchAux, hp, hk]⟩

/-- C2 counterexample: `old = " "` occurs twice exactly in the document
`"  "`, and after normalization (both sides trim to the empty line) the
normalized pattern has exactly one occurrence; the claim then demands a
fuzzy success, but the code stops at the exact phase with the ambiguity
error. -/
theorem edit_fuzzy_after_ambiguous_cex :
    countOcc [' '] [' ', ' '] = 2 ∧
    countOcc (normalize_for_fuzzy [' ']) (normalize_for_fuzzy [' ', ' ']) = 1 ∧
    applyEdit [' ', ' '] [' '] ['x'] = .errAmbiguous 2 false := by decide

/-- C2 (amended): when `old` differs from `new`, has zero exact occurrences,
and its normalization occurs exactly once in the normalized document, the
edit succeeds with method `fuzzy`. -/
theorem edit_fuzzy_unique_normalized (content old new : List Char)
    (hdiff : old ≠ new) (h0 : countOcc old content = 0)
    (hf : countOcc (normalize_for_fuzzy old) (normalize_for_fuzzy content) = 1) :
    ∃ doc, applyEdit content old new = .ok doc .fuzzy := by
  have hne : old ≠ [] := by
    intro h
    rw [h] at h0
    simp [countOcc] at h0
  obtain ⟨k, hk⟩ :
      ∃ k, firstMatch (normalize_for_fuzzy old) (normalize_for_fuzzy content) = some k := by
    by_cases hno : normalize_for_fuzzy old = []
    · exact ⟨0, by simp [firstMatch, hno]⟩
    · have hpos : 1 ≤ countOccAux (normalize_for_fuzzy old)
          (normalize_for_fuzzy content).length (normalize_for_fuzzy content) := by
        unfold countOcc at hf
        rw [if_neg hno] at hf
        omega
      obtain ⟨k, hk⟩ := countOccAux_pos_firstMatch _ _ _ hpos
      exact ⟨k, by unfold firstMatch; rw [if_neg hno]; exact hk⟩
  unfold applyEdit
  rw [if_neg hne, if_neg hdiff, if_neg (by omega : ¬ countOcc old content = 1),
    if_neg (by omega : ¬ 1 < countOcc old content)]
  simp only [hf, if_pos, hk]
  split
  · exact ⟨_, rfl⟩
  · exact ⟨_, rfl⟩

/-- Witness for C2 (amended) at a concrete input. -/
theorem edit_fuzzy_unique_normalized_witness :
    ∃ doc, applyEdit ['’', 's'] [Char.ofNat 0x27, 's'] ['x'] = .ok doc .fuzzy :=
  edit_fuzzy_unique_normalized ['’', 's'] [Char.ofNat 0x27, 's'] ['x']
    (by decide) (by decide) (by decide)

inductive TruncatedBy where
  | lines
  | bytes
deriving DecidableEq

/-- `TruncationResult` (truncate.rs lines 17-24). -/
structure TruncationResult where
  content : List Char
  original_lines : Nat
  output_lines : Nat
  original_bytes : Nat
  output_bytes : Nat
  truncated_by : Option TruncatedBy
deriving DecidableEq

/-- The accumulation loop of `truncate_head` (truncate.rs lines 75-96):
returns the built output, the number of lines kept and the cut reason. -/
def headLoop (maxLines maxBytes : Nat) :
    List (List Char) → List Char → Nat → Nat → List Char × Nat × Option TruncatedBy
  | [], output, lineCount, _ => (output, lineCount, none)
  | line :: rest, output, lineCount, byteCount =>
    if maxLines ≤ lineCount then (output, lineCount, some .lines)
    else
      let lineWithNewline := if 0 < lineCount then '\n' :: line else line
      let newBytes := byteCount + byteLen lineWithNewline
      if maxBytes < newBytes then (output, lineCount, some .bytes)
      else headLoop maxLines maxBytes rest (output ++ lineWithNewline) (lineCount + 1) newBytes

/-- `truncate_head` (truncate.rs lines 54-106). -/
def truncate_head (input : List Char) (maxLines maxBytes : Nat) : TruncationResult :=
  let original_bytes := byteLen input
  let original_lines := (rustLines input).length
  if original_lines ≤ maxLines ∧ original_bytes ≤ maxBytes then
    ⟨input, original_lines, original_lines, original_bytes, original_bytes, none⟩
  else
    let r := headLoop maxLines maxBytes (rustLines input) [] 0 0
    ⟨r.1, original_lines, r.2.1, original_bytes, byteLen r.1, r.2.2⟩

/-- Drop the smallest prefix covering at least `target` bytes: the byte cut
of `truncate_tail` (truncate.rs lines 144-150), whose `while` loop advances
the cut point forward to the next character boundary. -/
def dropBytesCeil (target : Nat) : List Char → List Char
  | [] => []
  | c :: rest => if target = 0 then c :: rest else dropBytesCeil (target - c.utf8Size) rest

/-- `truncate_tail` (truncate.rs lines 110-166). -/
def truncate_tail (input : List Char) (maxLines maxBytes : Nat) : TruncationResult :=
  let original_bytes := byteLen input
  let original_lines := (rustLines input).length
  if original_lines ≤ maxLines ∧ original_bytes ≤ maxBytes then
    ⟨input, original_lines, original_lines, original_bytes, original_bytes, none⟩
  else
    let lines := rustLines input
    let start := if maxLines < lines.length then lines.length - maxLines else 0
    let joined := joinNl (lines.drop start)
    let truncated_by : Option TruncatedBy := if 0 < start then some .lines else none
    let final : List Char × Option TruncatedBy :=
      if maxBytes < byteLen joined then
        (dropBytesCeil (byteLen joined - maxBytes) joined, some .bytes)
      else (joined, truncated_by)
    ⟨final.1, original_lines, (rustLines final.1).length, original_bytes,
      byteLen final.1, final.2⟩

/-- `truncate_line` (truncate.rs lines 169-179): byte-threshold comparison,
and the prefix kept before `"..."` extends to the next character boundary at
or after `max_chars - 3` bytes. -/
def takeBytesCeil (target : Nat) : List Char → List Char
  | [] => []
  | c :: rest => if target = 0 then [] else c :: takeBytesCeil (target - c.utf8Size) rest

def truncate_line (line : List Char) (maxChars : Nat) : List Char :=
  if byteLen line ≤ maxChars then line
  else takeBytesCeil (maxChars - 3) line ++ ['.', '.', '.']

example :
    truncate_head ['a', '\n', 'b', '\n', 'c', '\n', 'd', '\n', 'e'] 3 10000 =
      ⟨['a', '\n', 'b', '\n', 'c'], 5, 3, 9, 5, some .lines⟩ := by decide

example :
    truncate_tail ['a', '\n', 'b', '\n', 'c', '\n', 'd', '\n', 'e'] 3 10000 =
      ⟨['c', '\n', 'd', '\n', 'e'], 5, 3, 9, 5, some .lines⟩ := by decide

example : truncate_line ['h', 'e', 'l', 'l', 'o'] 10 = ['h', 'e', 'l', 'l', 'o'] := by
  decide

example :
    truncate_line ['a', 'b', 'c', 'd', 'e', 'f', 'g'] 6 = ['a', 'b', 'c', '.', '.', '.'] := by
  decide

theorem byteLen_append (a b : List Char) : byteLen (a ++ b) = byteLen a + byteLen b := by
  simp [byteLen]

theorem byteLen_cons (c : Char) (s : List Char) :
    byteLen (c :: s) = c.utf8Size + byteLen s := by
  simp [byteLen]

theorem joinNl_cons_cons (l l2 : List Char) (ls : List (List Char)) :
    joinNl (l :: l2 :: ls) = l ++ '\n' :: joinNl (l2 :: ls) := by
  simp [joinNl]

theorem joinNl_append_nonempty (as bs : List (List Char)) (ha : as ≠ []) (hb : bs ≠ []) :
    joinNl (as ++ bs) = joinNl as ++ '\n' :: joinNl bs := by
  induction as with
  | nil => exact absurd rfl ha
  | cons l as' ih =>
    cases as' with
    | nil => simp [joinNl, hb]
    | cons l2 as2 =>
      rw [List.cons_append] at ih ⊢
      rw [List.cons_append, joinNl_cons_cons, ih (by simp), joinNl_cons_cons]
      simp [List.append_assoc]

theorem joinNl_snoc (as : List (List Char)) (l : List Char) :
    joinNl (as ++ [l]) = joinNl as ++ (if 0 < as.length then '\n' :: l else l) := by
  cases as with
  | nil => simp [joinNl]
  | cons a as' =>
    rw [joinNl_append_nonempty (a :: as') [l] (by simp) (by simp)]
    simp [joinNl]

theorem byteLen_joinNl_mono (as bs : List (List Char)) (ha : as ≠ []) :
    byteLen (joinNl as) ≤ byteLen (joinNl (as ++ bs)) := by
  cases bs with
  | nil => simp
  | cons b bs' =>
    rw [joinNl_append_nonempty as (b :: bs') ha (by simp), byteLen_append]
    omega

theorem byteLen_joinNl_take (ls : List (List Char)) (k : Nat) :
    byteLen (joinNl (ls.take k)) ≤ byteLen (joinNl ls) := by
  by_cases h : ls.take k = []
  · simp [h, joinNl, byteLen]
  · calc byteLen (joinNl (ls.take k)) ≤ byteLen (joinNl (ls.take k ++ ls.drop k)) :=
        byteLen_joinNl_mono _ _ h
    _ = byteLen (joinNl ls) := by rw [List.take_append_drop]

theorem byteLen_joinNl_drop (ls : List (List Char)) (k : Nat) :
    byteLen (joinNl (ls.drop k)) ≤ byteLen (joinNl ls) := by
  by_cases h : ls.take k = []
  · have : ls.drop k = ls := by
      cases k with
      | zero => simp
      | succ n => cases ls with
        | nil => simp
        | cons a l => simp [List.take_succ_cons] at h
    simp [this]
  · by_cases h2 : ls.drop k = []
    · simp [h2, joinNl, byteLen]
    · conv_rhs => rw [← List.take_append_drop k ls]
      rw [joinNl_append_nonempty _ _ h h2, byteLen_append, byteLen_cons]
      omega

theorem rustLinesAux_ne_nil (s : List Char) : rustLinesAux s ≠ [] := by
  induction s using rustLinesAux.induct with
  | case1 => simp [rustLinesAux]
  | case2 rest ih => simp [rustLinesAux]
  | case3 rest ih => simp [rustLinesAux]
  | case4 c rest h1 h2 ih =>
    simp only [rustLinesAux]
    cases h : rustLinesAux rest with
    | nil => exact absurd h ih
    | cons l ls => simp [consHead]

theorem joinNl_consHead (c : Char) (L : List (List Char)) (h : L ≠ []) :
    joinNl (consHead c L) = c :: joinNl L := by
  cases L with
  | nil => exact absurd rfl h
  | cons l ls => simp [consHead, joinNl]

theorem byteLen_joinNl_rustLinesAux (s : List Char) :
    byteLen (joinNl (rustLinesAux s)) ≤ byteLen s := by
  induction s using rustLinesAux.induct with
  | case1 => simp [rustLinesAux, joinNl, byteLen]
  | case2 rest ih =>
    have hne := rustLinesAux_ne_nil rest
    simp only [rustLinesAux]
    cases h : rustLinesAux rest with
    | nil => exact absurd h hne
    | cons l ls =>
      rw [h] at ih
      rw [joinNl_cons_cons, List.nil_append, byteLen_cons, byteLen_cons, byteLen_cons]
      have h1 : ('\n').utf8Size = 1 := rfl
      have h2 : ('\r').utf8Size = 1 := rfl
      omega
  | case3 rest ih =>
    have hne := rustLinesAux_ne_nil rest
    simp only [rustLinesAux]
    cases h : rustLinesAux rest with
    | nil => exact absurd h hne
    | cons l ls =>
      rw [h] at ih
      rw [joinNl_cons_cons, List.nil_append, byteLen_cons, byteLen_cons]
      have h1 : ('\n').utf8Size = 1 := rfl
      omega
  | case4 c rest h1 h2 ih =>
    simp only [rustLinesAux]
    rw [joinNl_consHead c _ (rustLinesAux_ne_nil rest), byteLen_cons, byteLen_cons]
    omega

theorem byteLen_joinNl_dropLastEmpty (L : List (List Char)) :
    byteLen (joinNl (dropLastEmpty L)) ≤ byteLen (joinNl L) := by
  unfold dropLastEmpty
  cases h : L.getLast? with
  | none => simp
  | some l =>
    cases l with
    | nil =>
      have hne : L ≠ [] := by
        intro h0
        rw [h0] at h
        simp at h
      have hL : L.dropLast ++ [[]] = L := by
        have h3 := List.dropLast_append_getLast hne
        rw [List.getLast?_eq_getLast L hne, Option.some_inj] at h
        rw [h] at h3
        exact h3
      calc byteLen (joinNl L.dropLast) ≤ byteLen (joinNl (L.dropLast ++ [[]])) := by
            rw [joinNl_snoc]
            by_cases hd : 0 < L.dropLast.length
            · rw [if_pos hd, byteLen_append, byteLen_cons]
              omega
            · rw [if_neg hd]
              simp
      _ = byteLen (joinNl L) := by rw [hL]
    | cons a l' => simp

theorem byteLen_joinNl_rustLines (s : List Char) :
    byteLen (joinNl (rustLines s)) ≤ byteLen s :=
  le_trans (byteLen_joinNl_dropLastEmpty _) (byteLen_joinNl_rustLinesAux s)

theorem headLoop_nil (m b : Nat) (out : List Char) (lc bc : Nat) :
    headLoop m b [] out lc bc = (out, lc, none) := rfl

theorem headLoop_cons (m b : Nat) (l : List Char) (rest : List (List Char))
    (out : List Char) (lc bc : Nat) :
    headLoop m b (l :: rest) out lc bc =
      if m ≤ lc then (out, lc, some .lines)
      else if b < bc + byteLen (if 0 < lc then '\n' :: l else l) then
        (out, lc, some .bytes)
      else headLoop m b rest (out ++ (if 0 < lc then '\n' :: l else l)) (lc + 1)
        (bc + byteLen (if 0 < lc then '\n' :: l else l)) := rfl

theorem headLoop_spec (m b : Nat) (ls : List (List Char)) :
    ∀ pls : List (List Char), ∃ k flag,
      headLoop m b ls (joinNl pls) pls.length (byteLen (joinNl pls)) =
        (joinNl (pls ++ ls.take k), pls.length + k, flag) ∧
      k ≤ ls.length ∧
      (flag = none ↔ k = ls.length) ∧
      (k = ls.length → ls ≠ [] →
        pls.length + ls.length ≤ m ∧ byteLen (joinNl (pls ++ ls)) ≤ b) ∧
      (byteLen (joinNl (pls ++ ls)) ≤ b → k = min (m - pls.length) ls.length) ∧
      (flag = some .bytes → b < byteLen (joinNl (pls ++ ls.take (k + 1)))) := by
  induction ls with
  | nil =>
    intro pls
    refine ⟨0, none, by simp [headLoop_nil], by simp, by simp, ?_, by simp, by simp⟩
    intro _ h
    exact absurd rfl h
  | cons l rest ih =>
    intro pls
    rw [headLoop_cons]
    by_cases hm : m ≤ pls.length
    · rw [if_pos hm]
      refine ⟨0, some .lines, by simp, by simp, ?_, ?_, ?_, by simp⟩
      · constructor
        · intro h; simp at h
        · intro h
          exact absurd h (by simp only [List.take_nil, List.length_cons]; omega)
      · intro h
        exact absurd h (by simp only [List.length_cons]; omega)
      · intro _
        have h0 : m - pls.length = 0 := by omega
        simp [h0]
    · rw [if_neg hm]
      have hsnoc : joinNl (pls ++ [l]) =
          joinNl pls ++ (if 0 < pls.length then '\n' :: l else l) := joinNl_snoc pls l
      have hbs : byteLen (joinNl (pls ++ [l])) =
          byteLen (joinNl pls) + byteLen (if 0 < pls.length then '\n' :: l else l) := by
        rw [hsnoc, byteLen_append]
      have happ : (pls ++ [l]) ++ rest = pls ++ l :: rest := by simp
      by_cases hb : b < byteLen (joinNl pls) +
          byteLen (if 0 < pls.length then '\n' :: l else l)
      · rw [if_pos hb]
        refine ⟨0, some .bytes, by simp, by simp, ?_, ?_, ?_, ?_⟩
        · constructor
          · intro h; simp at h
          · intro h
            exact absurd h (by simp only [List.length_cons]; omega)
        · intro h
          exact absurd h (by simp only [List.length_cons]; omega)
        · intro hby
          exfalso
          have h1 : byteLen (joinNl (pls ++ [l])) ≤ byteLen (joinNl (pls ++ l :: rest)) := by
            rw [← happ]
            exact byteLen_joinNl_mono _ _ (by simp)
          omega
        · intro _
          have h2 : pls ++ (l :: rest).take (0 + 1) = pls ++ [l] := by simp
          rw [h2, hbs]
          exact hb
      · rw [if_neg hb]
        have hcall :
            headLoop m b rest (joinNl pls ++ (if 0 < pls.length then '\n' :: l else l))
              (pls.length + 1)
              (byteLen (joinNl pls) + byteLen (if 0 < pls.length then '\n' :: l else l)) =
            headLoop m b rest (joinNl (pls ++ [l])) (pls ++ [l]).length
              (byteLen (joinNl (pls ++ [l]))) := by
          rw [hsnoc, byteLen_append]
          simp
        rw [hcall]
        obtain ⟨k', flag', hres, hk', hflag, hall, hmin, hbytes⟩ := ih (pls ++ [l])
        have hlist : (pls ++ [l]) ++ rest.take k' = pls ++ (l :: rest).take (k' + 1) := by
          simp [List.take_succ_cons]
        have hlen : (pls ++ [l]).length + k' = pls.length + (k' + 1) := by
          simp
          omega
        refine ⟨k' + 1, flag', ?_, ?_, ?_, ?_, ?_, ?_⟩
        · rw [hres, hlist, hlen]
        · simp only [List.length_cons]
          omega
        · rw [hflag]
          simp only [List.length_cons]
          omega
        · intro h _
          simp only [List.length_cons] at h
          have hk2 : k' = rest.length := by omega
          by_cases hrest : rest = []
          · subst hrest
            constructor
            · simp only [List.length_cons, List.length_nil]
              omega
            · have hb2 : byteLen (joinNl (pls ++ [l])) ≤ b := by
                rw [hbs]
                omega
              simpa using hb2
          · obtain ⟨ha, hb2⟩ := hall hk2 hrest
            constructor
            · simp only [List.length_append, List.length_singleton] at ha
              simp only [List.length_cons]
              omega
            · rwa [happ] at hb2
        · intro hby
          rw [← happ] at hby
          have := hmin hby
          simp only [List.length_append, List.length_singleton] at this
          simp only [List.length_cons]
          omega
        · intro hf
          have := hbytes hf
          have hlist2 : (pls ++ [l]) ++ rest.take (k' + 1) =
              pls ++ (l :: rest).take (k' + 1 + 1) := by
            simp [List.take_succ_cons]
          rwa [hlist2] at this

theorem headLoop_spec_nil (m b : Nat) (ls : List (List Char)) :
    ∃ k flag,
      headLoop m b ls [] 0 0 = (joinNl (ls.take k), k, flag) ∧
      k ≤ ls.length ∧
      (flag = none ↔ k = ls.length) ∧
      (k = ls.length → ls ≠ [] → ls.length ≤ m ∧ byteLen (joinNl ls) ≤ b) ∧
      (byteLen (joinNl ls) ≤ b → k = min m ls.length) ∧
      (flag = some .bytes → b < byteLen (joinNl (ls.take (k + 1)))) := by
  have h := headLoop_spec m b ls []
  simpa [joinNl, byteLen] using h

theorem truncate_head_eq_of_not_fast (t : List Char) (L B : Nat)
    (hfast : ¬ ((rustLines t).length ≤ L ∧ byteLen t ≤ B))
    (k : Nat) (flag : Option TruncatedBy)
    (hres : headLoop L B (rustLines t) [] 0 0 = (joinNl ((rustLines t).take k), k, flag)) :
    truncate_head t L B =
      ⟨joinNl ((rustLines t).take k), (rustLines t).length, k, byteLen t,
        byteLen (joinNl ((rustLines t).take k)), flag⟩ := by
  unfold truncate_head
  rw [if_neg hfast]
  simp only [hres]

/-- C6: with an unbounded byte budget and a line budget below the line count,
`truncate_head` returns exactly the first `L` lines joined by newline, with
`output_lines = L`; and whenever it cuts by bytes, its output is a whole-line
prefix (the next line is excluded entirely) whose extension by one more line
would exceed the byte budget. -/
theorem truncate_head_first_lines :
    ∀ (t : List Char) (L B : Nat),
      (byteLen t ≤ B → L < (rustLines t).length →
        (truncate_head t L B).content = joinNl ((rustLines t).take L) ∧
        (truncate_head t L B).output_lines = L) ∧
      ((truncate_head t L B).truncated_by = some .bytes →
        (truncate_head t L B).content =
          joinNl ((rustLines t).take ((truncate_head t L B).output_lines)) ∧
        B < byteLen (joinNl ((rustLines t).take ((truncate_head t L B).output_lines + 1)))) := by
  intro t L B
  by_cases hfast : (rustLines t).length ≤ L ∧ byteLen t ≤ B
  · have heq : truncate_head t L B =
        ⟨t, (rustLines t).length, (rustLines t).length, byteLen t, byteLen t, none⟩ := by
      unfold truncate_head
      rw [if_pos hfast]
    constructor
    · intro _ hL
      exact absurd hfast.1 (by omega)
    · intro h
      rw [heq] at h
      simp at h
  · obtain ⟨k, flag, hres, hk, hflag, hall, hmin, hbytes⟩ := headLoop_spec_nil L B (rustLines t)
    have heq := truncate_head_eq_of_not_fast t L B hfast k flag hres
    constructor
    · intro hB hL
      have hjoin : byteLen (joinNl (rustLines t)) ≤ B :=
        le_trans (byteLen_joinNl_rustLines t) hB
      have hkL : k = L := by
        have := hmin hjoin
        omega
      rw [heq, hkL]
      simp
    · intro hf
      rw [heq] at hf
      have hflag2 : flag = some .bytes := hf
      rw [heq]
      exact ⟨rfl, hbytes hflag2⟩

/-- Witness for C6 at a concrete input. -/
theorem truncate_head_first_lines_witness :
    (truncate_head ['a', '\n', 'b', '\n', 'c'] 2 100).content =
        joinNl ((rustLines ['a', '\n', 'b', '\n', 'c']).take 2) ∧
      (truncate_head ['a', '\n', 'b', '\n', 'c'] 2 100).output_lines = 2 :=
  (truncate_head_first_lines ['a', '\n', 'b', '\n', 'c'] 2 100).1 (by decide) (by decide)

theorem rustLinesAux_other (c : Char) (rest : List Char) (h2 : c = '\n' → False)
    (h1 : ∀ r1, c = '\r' → rest = '\n' :: r1 → False) :
    rustLinesAux (c :: rest) = consHead c (rustLinesAux rest) := by
  simp only [rustLinesAux]

theorem rustLinesAux_no_nl (s : List Char) : ∀ l ∈ rustLinesAux s, '\n' ∉ l := by
  induction s using rustLinesAux.induct with
  | case1 =>
    intro l hl
    simp only [rustLinesAux, List.mem_singleton] at hl
    simp [hl]
  | case2 rest ih =>
    intro l hl
    simp only [rustLinesAux, List.mem_cons] at hl
    rcases hl with h | h
    · simp [h]
    · exact ih l h
  | case3 rest ih =>
    intro l hl
    simp only [rustLinesAux, List.mem_cons] at hl
    rcases hl with h | h
    · simp [h]
    · exact ih l h
  | case4 c rest h1 h2 ih =>
    intro l hl
    rw [rustLinesAux_other c rest h2 h1] at hl
    cases hL : rustLinesAux rest with
    | nil => exact absurd hL (rustLinesAux_ne_nil rest)
    | cons l0 ls =>
      rw [hL] at hl
      simp only [consHead, List.mem_cons] at hl
      rcases hl with h | h
      · subst h
        intro hmem
        rcases List.mem_cons.mp hmem with h | h
        · exact h2 h.symm
        · exact (ih l0 (by rw [hL]; exact List.mem_cons_self _ _)) h
      · exact ih l (by rw [hL]; exact List.mem_cons_of_mem _ h)

theorem dropLastEmpty_of_last_empty {L : List (List Char)} (h : L.getLast? = some []) :
    dropLastEmpty L = L.dropLast := by
  unfold dropLastEmpty
  rw [h]

theorem dropLastEmpty_of_last_ne {L : List (List Char)} (h : L.getLast? ≠ some []) :
    dropLastEmpty L = L := by
  unfold dropLastEmpty
  cases hG : L.getLast? with
  | none => rfl
  | some g =>
    cases g with
    | nil => exact absurd hG h
    | cons a g' => rfl

theorem dropLastEmpty_length_le (L : List (List Char)) :
    (dropLastEmpty L).length ≤ L.length := by
  by_cases h : L.getLast? = some []
  · rw [dropLastEmpty_of_last_empty h, List.length_dropLast]
    omega
  · rw [dropLastEmpty_of_last_ne h]

theorem rustLines_no_nl (s : List Char) : ∀ l ∈ rustLines s, '\n' ∉ l := by
  intro l hl
  apply rustLinesAux_no_nl s
  unfold rustLines at hl
  by_cases h : (rustLinesAux s).getLast? = some []
  · rw [dropLastEmpty_of_last_empty h] at hl
    exact List.dropLast_subset _ hl
  · rwa [dropLastEmpty_of_last_ne h] at hl

theorem rustLinesAux_eq_of_no_nl (l : List Char) (h : '\n' ∉ l) : rustLinesAux l = [l] := by
  induction l with
  | nil => rfl
  | cons c rest ih =>
    have hc : c = '\n' → False := fun hh => h (by simp [hh])
    have h1 : ∀ r1, c = '\r' → rest = '\n' :: r1 → False := by
      intro r1 _ hr
      exact h (by simp [hr])
    rw [rustLinesAux_other c rest hc h1, ih (fun hm => h (List.mem_cons_of_mem _ hm))]
    rfl

theorem rustLinesAux_append_nl (l : List Char) (s : List Char) (h : '\n' ∉ l) :
    (rustLinesAux (l ++ '\n' :: s)).length = 1 + (rustLinesAux s).length := by
  induction l with
  | nil =>
    rw [List.nil_append, show rustLinesAux ('\n' :: s) = [] :: rustLinesAux s from rfl]
    simp only [List.length_cons]
    omega
  | cons c rest ih =>
    have hc : c = '\n' → False := fun hh => h (by simp [hh])
    by_cases hr : c = '\r' ∧ rest = ([] : List Char)
    · obtain ⟨hc2, hr2⟩ := hr
      subst hc2
      subst hr2
      rw [show ('\r' :: ([] : List Char)) ++ '\n' :: s = '\r' :: '\n' :: s from rfl]
      rw [show rustLinesAux ('\r' :: '\n' :: s) = [] :: rustLinesAux s from rfl]
      simp only [List.length_cons]
      omega
    · have h1 : ∀ r1, c = '\r' → rest ++ '\n' :: s = '\n' :: r1 → False := by
        intro r1 hcr hreq
        cases rest with
        | nil => exact hr ⟨hcr, rfl⟩
        | cons a rest2 =>
          simp only [List.cons_append, List.cons.injEq] at hreq
          exact h (by simp [hreq.1])
      rw [List.cons_append, rustLinesAux_other c (rest ++ '\n' :: s) hc h1]
      have hne := rustLinesAux_ne_nil (rest ++ '\n' :: s)
      have ih2 := ih (fun hm => h (List.mem_cons_of_mem _ hm))
      cases hL : rustLinesAux (rest ++ '\n' :: s) with
      | nil => exact absurd hL hne
      | cons l0 ls =>
        rw [hL] at ih2
        simp only [consHead, List.length_cons] at ih2 ⊢
        omega

theorem rustLines_joinNl_length_le (ls : List (List Char)) (h : ∀ l ∈ ls, '\n' ∉ l) :
    (rustLines (joinNl ls)).length ≤ ls.length := by
  by_cases hls : ls = []
  · subst hls
    simp [joinNl, rustLines, rustLinesAux, dropLastEmpty]
  · have haux : ∀ (ms : List (List Char)), ms ≠ [] → (∀ l ∈ ms, '\n' ∉ l) →
        (rustLinesAux (joinNl ms)).length ≤ ms.length := by
      intro ms
      induction ms with
      | nil => intro hx; exact absurd rfl hx
      | cons l ls' ih =>
        intro _ hm
        cases ls' with
        | nil =>
          rw [show joinNl [l] = l from by simp [joinNl]]
          rw [rustLinesAux_eq_of_no_nl l (hm l (by simp))]
        | cons l2 ls2 =>
          rw [joinNl_cons_cons]
          rw [rustLinesAux_append_nl l (joinNl (l2 :: ls2)) (hm l (by simp))]
          have hih := ih (by simp) (fun x hx => hm x (List.mem_cons_of_mem _ hx))
          simp only [List.length_cons] at hih ⊢
          omega
    calc (rustLines (joinNl ls)).length ≤ (rustLinesAux (joinNl ls)).length :=
        dropLastEmpty_length_le _
    _ ≤ ls.length := haux ls hls h

theorem dropLastEmpty_cons_nil_mono (L : List (List Char)) (hne : L ≠ []) :
    (dropLastEmpty L).length ≤ (dropLastEmpty ([] :: L)).length := by
  cases L with
  | nil => exact absurd rfl hne
  | cons l0 ls =>
    have hlast : (([] : List Char) :: l0 :: ls).getLast? = (l0 :: ls).getLast? :=
      List.getLast?_cons_cons
    by_cases h : (l0 :: ls).getLast? = some []
    · rw [dropLastEmpty_of_last_empty h,
        dropLastEmpty_of_last_empty (by rw [hlast]; exact h)]
      rw [List.length_dropLast, List.length_dropLast]
      simp only [List.length_cons]
      omega
    · rw [dropLastEmpty_of_last_ne h, dropLastEmpty_of_last_ne (by rw [hlast]; exact h)]
      simp

theorem dropLastEmpty_consHead_mono (c : Char) (L : List (List Char)) (hne : L ≠ []) :
    (dropLastEmpty L).length ≤ (dropLastEmpty (consHead c L)).length := by
  cases L with
  | nil => exact absurd rfl hne
  | cons l0 ls =>
    cases ls with
    | nil =>
      rw [show consHead c [l0] = [c :: l0] from rfl,
        dropLastEmpty_of_last_ne (L := [c :: l0]) (by simp)]
      calc (dropLastEmpty [l0]).length ≤ [l0].length := dropLastEmpty_length_le _
      _ ≤ [c :: l0].length := by simp
    | cons l1 ls2 =>
      have hlast : (consHead c (l0 :: l1 :: ls2)).getLast? = (l0 :: l1 :: ls2).getLast? := by
        rw [show consHead c (l0 :: l1 :: ls2) = (c :: l0) :: l1 :: ls2 from rfl]
        rw [List.getLast?_cons_cons, List.getLast?_cons_cons]
      by_cases h : (l0 :: l1 :: ls2).getLast? = some []
      · rw [dropLastEmpty_of_last_empty h,
          dropLastEmpty_of_last_empty (by rw [hlast]; exact h)]
        rw [List.length_dropLast, List.length_dropLast]
        rw [show consHead c (l0 :: l1 :: ls2) = (c :: l0) :: l1 :: ls2 from rfl]
        simp
      · rw [dropLastEmpty_of_last_ne h, dropLastEmpty_of_last_ne (by rw [hlast]; exact h)]
        rw [show consHead c (l0 :: l1 :: ls2) = (c :: l0) :: l1 :: ls2 from rfl]
        simp

theorem rustLines_length_cons_mono (c : Char) (x : List Char) :
    (rustLines x).length ≤ (rustLines (c :: x)).length := by
  unfold rustLines
  by_cases hn : c = '\n'
  · subst hn
    rw [show rustLinesAux ('\n' :: x) = [] :: rustLinesAux x from rfl]
    exact dropLastEmpty_cons_nil_mono _ (rustLinesAux_ne_nil x)
  · by_cases hrn : c = '\r' ∧ ∃ x', x = '\n' :: x'
    · obtain ⟨hc, x', hx⟩ := hrn
      subst hc
      subst hx
      rw [show rustLinesAux ('\r' :: '\n' :: x') = [] :: rustLinesAux x' from rfl,
        show rustLinesAux ('\n' :: x') = [] :: rustLinesAux x' from rfl]
    · have h1 : ∀ r1, c = '\r' → x = '\n' :: r1 → False := by
        intro r1 hc hx
        exact hrn ⟨hc, r1, hx⟩
      rw [rustLinesAux_other c x (fun hh => hn hh) h1]
      exact dropLastEmpty_consHead_mono c _ (rustLinesAux_ne_nil x)

theorem rustLines_length_le_append (p y : List Char) :
    (rustLines y).length ≤ (rustLines (p ++ y)).length := by
  induction p with
  | nil => exact Nat.le_refl _
  | cons c p' ih => exact le_trans ih (rustLines_length_cons_mono c (p' ++ y))

theorem dropBytesCeil_suffix (e : Nat) (s : List Char) :
    ∃ p, s = p ++ dropBytesCeil e s := by
  induction s generalizing e with
  | nil => exact ⟨[], rfl⟩
  | cons c rest ih =>
    by_cases h : e = 0
    · refine ⟨[], ?_⟩
      rw [show dropBytesCeil e (c :: rest) = c :: rest from by simp [dropBytesCeil, h]]
      rfl
    · obtain ⟨p, hp⟩ := ih (e - c.utf8Size)
      refine ⟨c :: p, ?_⟩
      rw [show dropBytesCeil e (c :: rest) = dropBytesCeil (e - c.utf8Size) rest from by
        simp [dropBytesCeil, h]]
      rw [List.cons_append, ← hp]

theorem byteLen_dropBytesCeil_le (e : Nat) (s : List Char) :
    byteLen (dropBytesCeil e s) ≤ byteLen s := by
  obtain ⟨p, hp⟩ := dropBytesCeil_suffix e s
  calc byteLen (dropBytesCeil e s) ≤ byteLen p + byteLen (dropBytesCeil e s) := by omega
  _ = byteLen s := by rw [← byteLen_append, ← hp]

theorem rustLines_dropBytesCeil_le (e : Nat) (s : List Char) :
    (rustLines (dropBytesCeil e s)).length ≤ (rustLines s).length := by
  obtain ⟨p, hp⟩ := dropBytesCeil_suffix e s
  calc (rustLines (dropBytesCeil e s)).length
      ≤ (rustLines (p ++ dropBytesCeil e s)).length := rustLines_length_le_append _ _
  _ = (rustLines s).length := by rw [← hp]

theorem dropBytesCeil_zero (s : List Char) : dropBytesCeil 0 s = s := by
  cases s with
  | nil => rfl
  | cons c rest => simp [dropBytesCeil]

/-- The tail restricted to its last `L` lines and joined; for `L` below the
line count this is exactly the last `L` lines of `t` joined by newline. -/
def tailJoined (t : List Char) (L : Nat) : List Char :=
  joinNl ((rustLines t).drop ((rustLines t).length - L))

theorem truncate_tail_not_fast (t : List Char) (L B : Nat)
    (hfast : ¬ ((rustLines t).length ≤ L ∧ byteLen t ≤ B)) :
    truncate_tail t L B =
      if B < byteLen (tailJoined t L) then
        ⟨dropBytesCeil (byteLen (tailJoined t L) - B) (tailJoined t L),
          (rustLines t).length,
          (rustLines (dropBytesCeil (byteLen (tailJoined t L) - B) (tailJoined t L))).length,
          byteLen t,
          byteLen (dropBytesCeil (byteLen (tailJoined t L) - B) (tailJoined t L)),
          some .bytes⟩
      else
        ⟨tailJoined t L, (rustLines t).length, (rustLines (tailJoined t L)).length,
          byteLen t, byteLen (tailJoined t L),
          if 0 < (rustLines t).length - L then some .lines else none⟩ := by
  unfold truncate_tail
  rw [if_neg hfast]
  have hstart : (if L < (rustLines t).length then (rustLines t).length - L else 0) =
      (rustLines t).length - L := by
    split <;> omega
  simp only [hstart]
  unfold tailJoined
  by_cases hb : B < byteLen (joinNl ((rustLines t).drop ((rustLines t).length - L)))
  · rw [if_pos hb, if_pos hb]
  · rw [if_neg hb, if_neg hb]

/-- C7: `truncate_tail` restricts to the last `max_lines` lines, joins them
with newlines, and removes bytes from the start of the joined string when it
still exceeds `max_bytes`; in particular with an unbounded byte budget and
`L` below the line count the output is exactly the last `L` lines joined. -/
theorem truncate_tail_last_lines :
    ∀ (t : List Char) (L B : Nat),
      (byteLen t ≤ B → L < (rustLines t).length →
        (truncate_tail t L B).content = tailJoined t L) ∧
      (¬ ((rustLines t).length ≤ L ∧ byteLen t ≤ B) →
        (truncate_tail t L B).content =
          dropBytesCeil (byteLen (tailJoined t L) - B) (tailJoined t L)) := by
  intro t L B
  have hjb0 : byteLen (tailJoined t L) ≤ byteLen t := by
    unfold tailJoined
    calc byteLen (joinNl ((rustLines t).drop ((rustLines t).length - L)))
        ≤ byteLen (joinNl (rustLines t)) := byteLen_joinNl_drop _ _
    _ ≤ byteLen t := byteLen_joinNl_rustLines t
  constructor
  · intro hB hL
    have hfast : ¬ ((rustLines t).length ≤ L ∧ byteLen t ≤ B) := by
      intro h
      omega
    rw [truncate_tail_not_fast t L B hfast, if_neg (by omega)]
  · intro hfast
    rw [truncate_tail_not_fast t L B hfast]
    by_cases hb : B < byteLen (tailJoined t L)
    · rw [if_pos hb]
    · rw [if_neg hb]
      have h0 : byteLen (tailJoined t L) - B = 0 := by omega
      rw [h0, dropBytesCeil_zero]

/-- Witness for C7 at a concrete input. -/
theorem truncate_tail_last_lines_witness :
    (truncate_tail ['a', '\n', 'b', '\n', 'c'] 1 100).content =
      tailJoined ['a', '\n', 'b', '\n', 'c'] 1 :=
  (truncate_tail_last_lines ['a', '\n', 'b', '\n', 'c'] 1 100).1 (by decide) (by decide)

/-- C5 counterexample: on input `"a\n"` with `max_lines = 10`, `max_bytes = 1`
the byte limit is exceeded (`original_bytes = 2 > 1`) and the content changes
(the trailing newline is lost), yet `truncate_head` reports `cut_reason =
None`, so "`cut_reason` is `None` iff neither limit was exceeded" fails. -/
theorem truncation_cut_reason_cex :
    (truncate_head ['a', '\n'] 10 1).truncated_by = none ∧
    1 < (truncate_head ['a', '\n'] 10 1).original_bytes ∧
    (truncate_head ['a', '\n'] 10 1).content ≠ ['a', '\n'] := by decide

/-- C5 (amended): for both `truncate_head` and `truncate_tail`,
`output_lines ≤ original_lines`, `output_bytes ≤ original_bytes`, and
`cut_reason` is `None` iff the line count is within `max_lines` and the
newline-joined line content (the input without a trailing line terminator
and with `"\r\n"` folded to `"\n"`) is within `max_bytes`. -/
theorem truncation_invariants :
    ∀ (t : List Char) (L B : Nat),
      ((truncate_head t L B).output_lines ≤ (truncate_head t L B).original_lines ∧
       (truncate_head t L B).output_bytes ≤ (truncate_head t L B).original_bytes ∧
       ((truncate_head t L B).truncated_by = none ↔
         (rustLines t).length ≤ L ∧ byteLen (joinNl (rustLines t)) ≤ B)) ∧
      ((truncate_tail t L B).output_lines ≤ (truncate_tail t L B).original_lines ∧
       (truncate_tail t L B).output_bytes ≤ (truncate_tail t L B).original_bytes ∧
       ((truncate_tail t L B).truncated_by = none ↔
         (rustLines t).length ≤ L ∧ byteLen (joinNl (rustLines t)) ≤ B)) := by
  intro t L B
  have hjb0 : byteLen (tailJoined t L) ≤ byteLen t := by
    unfold tailJoined
    calc byteLen (joinNl ((rustLines t).drop ((rustLines t).length - L)))
        ≤ byteLen (joinNl (rustLines t)) := byteLen_joinNl_drop _ _
    _ ≤ byteLen t := byteLen_joinNl_rustLines t
  have hsel : (rustLines (tailJoined t L)).length ≤ (rustLines t).length := by
    unfold tailJoined
    calc (rustLines (joinNl ((rustLines t).drop ((rustLines t).length - L)))).length
        ≤ ((rustLines t).drop ((rustLines t).length - L)).length :=
        rustLines_joinNl_length_le _ (fun l hl =>
          rustLines_no_nl t l (List.mem_of_mem_drop hl))
    _ ≤ (rustLines t).length := by
        rw [List.length_drop]
        omega
  constructor
  · by_cases hfast : (rustLines t).length ≤ L ∧ byteLen t ≤ B
    · have heq : truncate_head t L B =
          ⟨t, (rustLines t).length, (rustLines t).length, byteLen t, byteLen t, none⟩ := by
        unfold truncate_head
        rw [if_pos hfast]
      rw [heq]
      refine ⟨le_refl _, le_refl _, ?_⟩
      show (none : Option TruncatedBy) = none ↔ _
      constructor
      · intro _
        exact ⟨hfast.1, le_trans (byteLen_joinNl_rustLines t) hfast.2⟩
      · intro _
        rfl
    · obtain ⟨k, flag, hres, hk, hflag, hall, hmin, hbytes⟩ :=
        headLoop_spec_nil L B (rustLines t)
      have heq := truncate_head_eq_of_not_fast t L B hfast k flag hres
      rw [heq]
      refine ⟨?_, ?_, ?_⟩
      · show k ≤ (rustLines t).length
        exact hk
      · show byteLen (joinNl ((rustLines t).take k)) ≤ byteLen t
        exact le_trans (byteLen_joinNl_take _ _) (byteLen_joinNl_rustLines t)
      · show flag = none ↔ _
        rw [hflag]
        constructor
        · intro hlen
          by_cases hnil : rustLines t = []
          · rw [hnil]
            exact ⟨by simp, by simp [joinNl, byteLen]⟩
          · exact hall hlen hnil
        · rintro ⟨h1, h2⟩
          have := hmin h2
          omega
  · by_cases hfast : (rustLines t).length ≤ L ∧ byteLen t ≤ B
    · have heq : truncate_tail t L B =
          ⟨t, (rustLines t).length, (rustLines t).length, byteLen t, byteLen t, none⟩ := by
        unfold truncate_tail
        rw [if_pos hfast]
      rw [heq]
      refine ⟨le_refl _, le_refl _, ?_⟩
      show (none : Option TruncatedBy) = none ↔ _
      constructor
      · intro _
        exact ⟨hfast.1, le_trans (byteLen_joinNl_rustLines t) hfast.2⟩
      · intro _
        rfl
    · rw [truncate_tail_not_fast t L B hfast]
      by_cases hb : B < byteLen (tailJoined t L)
      · rw [if_pos hb]
        refine ⟨?_, ?_, ?_⟩
        · show (rustLines (dropBytesCeil (byteLen (tailJoined t L) - B)
              (tailJoined t L))).length ≤ (rustLines t).length
          exact le_trans (rustLines_dropBytesCeil_le _ _) hsel
        · show byteLen (dropBytesCeil (byteLen (tailJoined t L) - B)
              (tailJoined t L)) ≤ byteLen t
          exact le_trans (byteLen_dropBytesCeil_le _ _) hjb0
        · show (some TruncatedBy.bytes = none) ↔ _
          constructor
          · intro h
            simp at h
          · rintro ⟨h1, h2⟩
            exfalso
            have hdrop0 : (rustLines t).length - L = 0 := by omega
            have he : tailJoined t L = joinNl (rustLines t) := by
              unfold tailJoined
              rw [hdrop0, List.drop_zero]
            rw [he] at hb
            omega
      · rw [if_neg hb]
        refine ⟨?_, ?_, ?_⟩
        · show (rustLines (tailJoined t L)).length ≤ (rustLines t).length
          exact hsel
        · show byteLen (tailJoined t L) ≤ byteLen t
          exact hjb0
        · show (if 0 < (rustLines t).length - L then some TruncatedBy.lines else none)
              = none ↔ _
          by_cases hs : 0 < (rustLines t).length - L
          · rw [if_pos hs]
            constructor
            · intro h
              simp at h
            · rintro ⟨h1, _⟩
              omega
          · rw [if_neg hs]
            constructor
            · intro _
              refine ⟨by omega, ?_⟩
              have hdrop0 : (rustLines t).length - L = 0 := by omega
              have he : tailJoined t L = joinNl (rustLines t) := by
                unfold tailJoined
                rw [hdrop0, List.drop_zero]
              rw [← he]
              omega
            · intro _
              rfl

theorem length_le_byteLen (l : List Char) : l.length ≤ byteLen l := by
  induction l with
  | nil => simp [byteLen]
  | cons c rest ih =>
    rw [byteLen_cons]
    have := Char.utf8Size_pos c
    simp only [List.length_cons]
    omega

theorem takeBytesCeil_length_le (t : Nat) (l : List Char) :
    (takeBytesCeil t l).length ≤ t := by
  induction l generalizing t with
  | nil => simp [takeBytesCeil]
  | cons c rest ih =>
    by_cases h : t = 0
    · simp [takeBytesCeil, h]
    · rw [show takeBytesCeil t (c :: rest) = c :: takeBytesCeil (t - c.utf8Size) rest from by
        simp [takeBytesCeil, h]]
      have hs := Char.utf8Size_pos c
      have := ih (t - c.utf8Size)
      simp only [List.length_cons]
      omega

theorem takeBytesCeil_prefix_decomp (t : Nat) (l : List Char) :
    ∃ q, l = takeBytesCeil t l ++ q := by
  induction l generalizing t with
  | nil => exact ⟨[], rfl⟩
  | cons c rest ih =>
    by_cases h : t = 0
    · exact ⟨c :: rest, by simp [takeBytesCeil, h]⟩
    · obtain ⟨q, hq⟩ := ih (t - c.utf8Size)
      refine ⟨q, ?_⟩
      rw [show takeBytesCeil t (c :: rest) = c :: takeBytesCeil (t - c.utf8Size) rest from by
        simp [takeBytesCeil, h], List.cons_append, ← hq]

/-- C8 counterexample: with `max_chars = 2` on the line `"abcd"` the result is
the bare three-character ellipsis, whose character count 3 exceeds
`max_chars`. -/
theorem truncate_line_exceeds_cex :
    truncate_line ['a', 'b', 'c', 'd'] 2 = ['.', '.', '.'] ∧
    2 < (truncate_line ['a', 'b', 'c', 'd'] 2).length := by decide

/-- C8 (amended): for `max_chars ≥ 3`, `truncate_line` never returns more
than `max_chars` characters; the line is returned unchanged exactly when its
byte length is within `max_chars` (the threshold compares bytes), and
otherwise the result is a prefix of the line — cut on a character boundary —
followed by the three-character ellipsis. -/
theorem truncate_line_bounds (line : List Char) (maxChars : Nat) (h3 : 3 ≤ maxChars) :
    (truncate_line line maxChars).length ≤ maxChars ∧
    (byteLen line ≤ maxChars → truncate_line line maxChars = line) ∧
    (maxChars < byteLen line →
      ∃ p q, line = p ++ q ∧ truncate_line line maxChars = p ++ ['.', '.', '.']) := by
  refine ⟨?_, ?_, ?_⟩
  · unfold truncate_line
    by_cases h : byteLen line ≤ maxChars
    · rw [if_pos h]
      exact le_trans (length_le_byteLen line) h
    · rw [if_neg h]
      have := takeBytesCeil_length_le (maxChars - 3) line
      simp only [List.length_append, List.length_cons, List.length_nil]
      omega
  · intro h
    unfold truncate_line
    rw [if_pos h]
  · intro h
    unfold truncate_line
    rw [if_neg (by omega)]
    obtain ⟨q, hq⟩ := takeBytesCeil_prefix_decomp (maxChars - 3) line
    exact ⟨takeBytesCeil (maxChars - 3) line, q, hq, rfl⟩

/-- Witness for C8 (amended) at a concrete input. -/
theorem truncate_line_bounds_witness :
    (truncate_line ['a', 'b', 'c', 'd'] 3).length ≤ 3 ∧
    (byteLen ['a', 'b', 'c', 'd'] ≤ 3 →
      truncate_line ['a', 'b', 'c', 'd'] 3 = ['a', 'b', 'c', 'd']) ∧
    (3 < byteLen ['a', 'b', 'c', 'd'] →
      ∃ p q, ['a', 'b', 'c', 'd'] = p ++ q ∧
        truncate_line ['a', 'b', 'c', 'd'] 3 = p ++ ['.', '.', '.']) :=
  truncate_line_bounds ['a', 'b', 'c', 'd'] 3 (by decide)

/-- The character folding of `normalize_for_fuzzy`, as the composition of its
eight single-character `replace` calls (applied innermost-first). -/
def normCharFun : Char → Char :=
  (fun c => if c = ' ' then Char.ofNat 0x20 else c) ∘
  (fun c => if c = ' ' then Char.ofNat 0x20 else c) ∘
  (fun c => if c = '—' then Char.ofNat 0x2D else c) ∘
  (fun c => if c = '–' then Char.ofNat 0x2D else c) ∘
  (fun c => if c = '”' then Char.ofNat 0x22 else c) ∘
  (fun c => if c = '“' then Char.ofNat 0x22 else c) ∘
  (fun c => if c = '’' then Char.ofNat 0x27 else c) ∘
  (fun c => if c = '‘' then Char.ofNat 0x27 else c)

theorem normalizeLine_eq_map (l : List Char) :
    normalizeLine l = (trimEnd l).map normCharFun := by
  unfold normalizeLine replaceChar normCharFun
  simp only [List.map_map]

theorem normCharFun_eq (c : Char) :
    normCharFun c =
      if c = '‘' ∨ c = '’' then Char.ofNat 0x27
      else if c = '“' ∨ c = '”' then Char.ofNat 0x22
      else if c = '–' ∨ c = '—' then Char.ofNat 0x2D
      else if c = ' ' ∨ c = ' ' then Char.ofNat 0x20
      else c := by
  by_cases h1 : c = '‘'
  · subst h1; decide
  by_cases h2 : c = '’'
  · subst h2; decide
  by_cases h3 : c = '“'
  · subst h3; decide
  by_cases h4 : c = '”'
  · subst h4; decide
  by_cases h5 : c = '–'
  · subst h5; decide
  by_cases h6 : c = '—'
  · subst h6; decide
  by_cases h7 : c = ' '
  · subst h7; decide
  by_cases h8 : c = ' '
  · subst h8; decide
  simp [normCharFun, h1, h2, h3, h4, h5, h6, h7, h8]

theorem normCharFun_idem (c : Char) : normCharFun (normCharFun c) = normCharFun c := by
  rw [normCharFun_eq c]
  split_ifs with h1 h2 h3 h4
  · decide
  · decide
  · decide
  · decide
  · rw [normCharFun_eq c]
    simp [h1, h2, h3, h4]

theorem normCharFun_not_ws (c : Char) (h : rustIsWhitespace c = false) :
    rustIsWhitespace (normCharFun c) = false := by
  rw [normCharFun_eq c]
  split_ifs with h1 h2 h3 h4
  · decide
  · decide
  · decide
  · rcases h4 with h4 | h4 <;> (subst h4; exact absurd h (by decide))
  · exact h

theorem normCharFun_ne_nl (c : Char) (h : c ≠ '\n') : normCharFun c ≠ '\n' := by
  rw [normCharFun_eq c]
  split_ifs with h1 h2 h3 h4
  · decide
  · decide
  · decide
  · decide
  · exact h

theorem head?_dropWhile_ws (x : List Char) (c : Char)
    (h : (x.dropWhile rustIsWhitespace).head? = some c) : rustIsWhitespace c = false := by
  induction x with
  | nil => simp [List.dropWhile] at h
  | cons a rest ih =>
    by_cases ha : rustIsWhitespace a
    · rw [List.dropWhile_cons_of_pos ha] at h
      exact ih h
    · rw [List.dropWhile_cons_of_neg ha] at h
      simp only [List.head?_cons, Option.some_inj] at h
      subst h
      simpa using ha

theorem trimEnd_last_not_ws (l : List Char) (c : Char)
    (h : (trimEnd l).getLast? = some c) : rustIsWhitespace c = false := by
  unfold trimEnd at h
  rw [List.getLast?_reverse] at h
  exact head?_dropWhile_ws l.reverse c h

theorem trimEnd_eq_of_last (l : List Char)
    (h : ∀ c, l.getLast? = some c → rustIsWhitespace c = false) : trimEnd l = l := by
  cases l using List.reverseRecOn with
  | nil => rfl
  | append_singleton xs x =>
    have hx : rustIsWhitespace x = false := h x (List.getLast?_concat xs)
    unfold trimEnd
    rw [List.reverse_append, List.reverse_singleton, List.singleton_append,
      List.dropWhile_cons_of_neg (by simp [hx])]
    simp

theorem mem_trimEnd (c : Char) (l : List Char) (h : c ∈ trimEnd l) : c ∈ l := by
  unfold trimEnd at h
  rw [List.mem_reverse] at h
  have h2 := (List.dropWhile_sublist (l := l.reverse) rustIsWhitespace).subset h
  rwa [List.mem_reverse] at h2

theorem normalizeLine_last_not_ws (l : List Char) (c : Char)
    (h : (normalizeLine l).getLast? = some c) : rustIsWhitespace c = false := by
  rw [normalizeLine_eq_map, List.getLast?_map] at h
  cases hg : (trimEnd l).getLast? with
  | none =>
    rw [hg] at h
    simp at h
  | some d =>
    rw [hg] at h
    simp only [Option.map_some', Option.some_inj] at h
    subst h
    exact normCharFun_not_ws d (trimEnd_last_not_ws l d hg)

theorem normalizeLine_idem (l : List Char) :
    normalizeLine (normalizeLine l) = normalizeLine l := by
  rw [normalizeLine_eq_map (normalizeLine l)]
  have htr : trimEnd (normalizeLine l) = normalizeLine l :=
    trimEnd_eq_of_last _ (fun c hc => normalizeLine_last_not_ws l c hc)
  rw [htr, normalizeLine_eq_map l, List.map_map]
  apply List.map_congr_left
  intro a _
  simp only [Function.comp_apply]
  exact normCharFun_idem a

theorem normalizeLine_no_nl (l : List Char) (h : '\n' ∉ l) : '\n' ∉ normalizeLine l := by
  rw [normalizeLine_eq_map]
  intro hmem
  obtain ⟨d, hd, hfd⟩ := List.mem_map.mp hmem
  exact normCharFun_ne_nl d
    (fun hdn => h (by rw [← hdn]; exact mem_trimEnd _ _ hd)) hfd

theorem normalizeLine_last_ne_cr (l : List Char)
    (h : (normalizeLine l).getLast? = some '\r') : False := by
  have := normalizeLine_last_not_ws l '\r' h
  exact absurd this (by decide)

theorem rustLinesAux_append_line (l s : List Char) (hnl : '\n' ∉ l)
    (hcr : l.getLast? = some '\r' → False) :
    rustLinesAux (l ++ '\n' :: s) = l :: rustLinesAux s := by
  induction l with
  | nil => rfl
  | cons c l' ih =>
    have hc : c = '\n' → False := fun hh => hnl (by simp [hh])
    cases l' with
    | nil =>
      have hcr2 : c = '\r' → False := fun hh => hcr (by simp [hh])
      rw [List.cons_append, List.nil_append,
        rustLinesAux_other c ('\n' :: s) hc (fun r1 hr _ => hcr2 hr)]
      rw [show rustLinesAux ('\n' :: s) = [] :: rustLinesAux s from rfl]
      rfl
    | cons a l'' =>
      have ha : a ≠ '\n' := fun hh => hnl (by simp [hh])
      have h1 : ∀ r1, c = '\r' → (a :: l'') ++ '\n' :: s = '\n' :: r1 → False := by
        intro r1 _ heq
        simp only [List.cons_append, List.cons.injEq] at heq
        exact ha heq.1
      rw [List.cons_append, rustLinesAux_other c _ hc h1]
      rw [ih (fun hm => hnl (List.mem_cons_of_mem _ hm))
        (fun hl => hcr (by rwa [List.getLast?_cons_cons]))]
      rfl

theorem dropLastEmpty_cons_of_ne_nil (a : List Char) (M : List (List Char)) (hM : M ≠ []) :
    dropLastEmpty (a :: M) = a :: dropLastEmpty M := by
  cases M with
  | nil => exact absurd rfl hM
  | cons m M' =>
    have hlast : (a :: m :: M').getLast? = (m :: M').getLast? := List.getLast?_cons_cons
    by_cases h : (m :: M').getLast? = some []
    · rw [dropLastEmpty_of_last_empty (by rw [hlast]; exact h),
        dropLastEmpty_of_last_empty h]
      rfl
    · rw [dropLastEmpty_of_last_ne (by rw [hlast]; exact h), dropLastEmpty_of_last_ne h]

theorem rustLines_joinNl_eq (ls : List (List Char))
    (hnl : ∀ l ∈ ls, '\n' ∉ l)
    (hcr : ∀ l ∈ ls, l.getLast? = some '\r' → False)
    (hlast : ls.getLast? ≠ some []) :
    rustLines (joinNl ls) = ls := by
  induction ls with
  | nil => rfl
  | cons l ls' ih =>
    cases ls' with
    | nil =>
      have hl : l ≠ [] := by
        intro h
        exact hlast (by rw [h]; rfl)
      rw [show joinNl [l] = l from by simp [joinNl]]
      unfold rustLines
      rw [rustLinesAux_eq_of_no_nl l (hnl l (by simp))]
      rw [dropLastEmpty_of_last_ne (by simpa using hl)]
    | cons l2 ls2 =>
      rw [joinNl_cons_cons]
      unfold rustLines
      rw [rustLinesAux_append_line l (joinNl (l2 :: ls2)) (hnl l (by simp))
        (hcr l (by simp))]
      rw [dropLastEmpty_cons_of_ne_nil l _ (rustLinesAux_ne_nil _)]
      have ihh := ih (fun x hx => hnl x (List.mem_cons_of_mem _ hx))
        (fun x hx => hcr x (List.mem_cons_of_mem _ hx))
        (by rwa [List.getLast?_cons_cons] at hlast)
      unfold rustLines at ihh
      rw [ihh]

/-- C9 counterexample: normalization is not idempotent.  On the text `"\n\n"`
(two lines, both empty) the first pass joins the two empty lines into `"\n"`,
and the second pass drops the now-trailing empty line, yielding `""`. -/
theorem normalize_idem_cex :
    normalize_for_fuzzy (normalize_for_fuzzy ['\n', '\n']) ≠
      normalize_for_fuzzy ['\n', '\n'] := by decide

/-- C9 (amended): normalization is idempotent on every text whose last line
does not normalize to the empty string — in particular on any text whose
normalized form does not end in a line terminator.  Otherwise renormalizing
drops the trailing empty line. -/
theorem normalize_for_fuzzy_idem (t : List Char)
    (h : ((rustLines t).map normalizeLine).getLast? ≠ some []) :
    normalize_for_fuzzy (normalize_for_fuzzy t) = normalize_for_fuzzy t := by
  have hnl : ∀ l ∈ (rustLines t).map normalizeLine, '\n' ∉ l := by
    intro l hl
    obtain ⟨y, hy, rfl⟩ := List.mem_map.mp hl
    exact normalizeLine_no_nl y (rustLines_no_nl t y hy)
  have hcr : ∀ l ∈ (rustLines t).map normalizeLine,
      l.getLast? = some '\r' → False := by
    intro l hl hlast2
    obtain ⟨y, hy, rfl⟩ := List.mem_map.mp hl
    exact normalizeLine_last_ne_cr y hlast2
  have hmapid : ((rustLines t).map normalizeLine).map normalizeLine =
      (rustLines t).map normalizeLine := by
    rw [List.map_map]
    apply List.map_congr_left
    intro a _
    simp only [Function.comp_apply]
    exact normalizeLine_idem a
  have hsplit := rustLines_joinNl_eq _ hnl hcr h
  unfold normalize_for_fuzzy
  rw [hsplit, hmapid]

/-- Witness for C9 (amended) at a concrete input. -/
theorem normalize_for_fuzzy_idem_witness :
    normalize_for_fuzzy (normalize_for_fuzzy ['a', '\n', 'b']) =
      normalize_for_fuzzy ['a', '\n', 'b'] :=
  normalize_for_fuzzy_idem ['a', '\n', 'b'] (by decide)

/-- C3 counterexample: document `"Q\nw’x"`, old `"w'x"`, new `"Z"`.  The
fuzzy match starts at the beginning of the second normalized line, one
normalized line precedes it, and the computed line range (one line starting
at line index 0) is consistent with the 2-line document — yet the edit
replaces the span `"Q"` of line 0, not the matched line, so the resulting
document is `"Z\nw’x"` rather than `"Q\nZ"` as the claim's description of
the located span would give. -/
theorem edit_fuzzy_mapping_cex :
    applyEdit ['Q', '\n', 'w', '’', 'x'] ['w', Char.ofNat 0x27, 'x'] ['Z'] =
      .ok ['Z', '\n', 'w', '’', 'x'] .fuzzy ∧
    (['Z', '\n', 'w', '’', 'x'] : List Char) ≠ ['Q', '\n', 'Z'] := by decide

/-- C3 (amended): when the exact phase finds zero occurrences and the fuzzy
phase exactly one, at normalized position `pos`: let `nlb` be the number of
lines of the normalized document's prefix of length `pos`.  If `0 < nlb ≤`
the document's line count, the edit replaces the first occurrence of the
span of original lines starting at index `nlb - 1` and covering at most the
number of lines of `old` (capped at the document's end); otherwise — in
particular whenever the match is at normalized position 0 — it performs the
degraded replacement on the normalized text instead. -/
theorem edit_fuzzy_line_mapping (content old new : List Char) (pos : Nat)
    (hdiff : old ≠ new) (h0 : countOcc old content = 0)
    (hf : countOcc (normalize_for_fuzzy old) (normalize_for_fuzzy content) = 1)
    (hidx : firstMatch (normalize_for_fuzzy old) (normalize_for_fuzzy content) = some pos) :
    applyEdit content old new =
      (if 0 < (rustLines ((normalize_for_fuzzy content).take pos)).length ∧
          (rustLines ((normalize_for_fuzzy content).take pos)).length ≤
            (rustLines content).length then
        .ok (replaceFirst
          (joinNl (((rustLines content).drop
              ((rustLines ((normalize_for_fuzzy content).take pos)).length - 1)).take
            (min ((rustLines ((normalize_for_fuzzy content).take pos)).length - 1 +
                (rustLines old).length) (rustLines content).length -
              ((rustLines ((normalize_for_fuzzy content).take pos)).length - 1))))
          new content) .fuzzy
      else
        .ok (replaceFirst (normalize_for_fuzzy old) new (normalize_for_fuzzy content))
          .fuzzy) := by
  have hne : old ≠ [] := by
    intro h
    rw [h] at h0
    simp [countOcc] at h0
  unfold applyEdit
  rw [if_neg hne, if_neg hdiff, if_neg (by omega : ¬ countOcc old content = 1),
    if_neg (by omega : ¬ 1 < countOcc old content)]
  simp only [hf, hidx, if_pos]

/-- Witness for C3 (amended) at a concrete input. -/
theorem edit_fuzzy_line_mapping_witness :
    applyEdit ['Q', '\n', 'w', '’', 'x'] ['w', Char.ofNat 0x27, 'x'] ['W'] =
      .ok ['W', '\n', 'w', '’', 'x'] .fuzzy :=
  (edit_fuzzy_line_mapping ['Q', '\n', 'w', '’', 'x'] ['w', Char.ofNat 0x27, 'x'] ['W'] 2
    (by decide) (by decide) (by decide) (by decide)).trans (by decide)

/-- The file addressed by an edit call: whether it exists, and its stored
content when it is readable (`none` models a read failure on an existing
file). -/
structure FileState where
  present : Bool
  stored : Option (List Char)
deriving DecidableEq

inductive ExecOutcome where
  | success (method : EditMethod)
  | failure
deriving DecidableEq

/-- `EditTool::execute` (edit.rs lines 106-224) over the file state: the
parameter checks, existence check, read, the pure replacement engine, and
the final write — performed only on a resolved unique match. -/
def editExecute (pathMissing : Bool) (old new : List Char) (st : FileState) :
    FileState × ExecOutcome :=
  if pathMissing then (st, .failure)
  else if old = [] then (st, .failure)
  else if old = new then (st, .failure)
  else if st.present = false then (st, .failure)
  else
    match st.stored with
    | none => (st, .failure)
    | some content =>
      match applyEdit content old new with
      | .ok doc m => (⟨true, some doc⟩, .success m)
      | _ => (st, .failure)

/-- C10: every error outcome of the edit tool (missing parameter, empty or
identical texts, missing file, read failure, ambiguity, no match) leaves the
stored file untouched, and a write happens only after the replacement engine
resolved a unique exact or fuzzy match. -/
theorem edit_execute_write_discipline :
    ∀ (pathMissing : Bool) (old new : List Char) (st : FileState),
      ((editExecute pathMissing old new st).2 = .failure →
        (editExecute pathMissing old new st).1 = st) ∧
      (∀ m, (editExecute pathMissing old new st).2 = .success m →
        ∃ content doc, st.present = true ∧ st.stored = some content ∧
          applyEdit content old new = .ok doc m ∧
          (editExecute pathMissing old new st).1 = ⟨true, some doc⟩) := by
  intro pathMissing old new st
  unfold editExecute
  by_cases h1 : pathMissing
  · simp [h1]
  rw [if_neg h1]
  by_cases h2 : old = []
  · simp [h2]
  rw [if_neg h2]
  by_cases h3 : old = new
  · simp [h3]
  rw [if_neg h3]
  by_cases h4 : st.present = false
  · simp [h4]
  rw [if_neg h4]
  cases hst : st.stored with
  | none => simp
  | some content =>
    dsimp only
    cases hres : applyEdit content old new with
    | ok doc m =>
      refine ⟨fun hm => by simp at hm, fun m' hm => ?_⟩
      have hm' : m = m' := by simpa using hm
      subst hm'
      exact ⟨content, doc, by simpa using h4, rfl, hres, by simp⟩
    | errEmptyOld => simp
    | errIdentical => simp
    | errAmbiguous n fz => simp
    | errNotFound => simp

/-- Witness for C10 at a concrete input. -/
theorem edit_execute_write_discipline_witness :
    (editExecute false ['a'] ['b'] ⟨true, some ['c']⟩).1 = ⟨true, some ['c']⟩ :=
  (edit_execute_write_discipline false ['a'] ['b'] ⟨true, some ['c']⟩).1 (by decide)
